import Mathlib

/-!
Verification development for the biofaster benchmark-result aggregation
pipeline (src/biofaster/funcitons.py).  The Python functions the claims
concern are embedded shallowly: strings are `List Char`, Python floats are
modelled as `ℚ`, raised exceptions as `Except`, and `None` as `Option`.
-/

namespace Biofaster

/-- `leadsWith pre s` is true when `pre` is an initial segment of `s`
(Python `s.startswith(pre)` / the scan step of `in`). -/
def leadsWith : List Char → List Char → Bool
  | [], _ => true
  | _ :: _, [] => false
  | a :: as, b :: bs => a == b && leadsWith as bs

/-- `trailsWith suf s` is true when `suf` is a final segment of `s`
(Python `s.endswith(suf)`). -/
def trailsWith (suf s : List Char) : Bool :=
  leadsWith suf.reverse s.reverse

/-- `containsSub sub s` is true when `sub` occurs contiguously in `s`
(Python `sub in s`). -/
def containsSub (sub : List Char) : List Char → Bool
  | [] => leadsWith sub []
  | c :: rest => leadsWith sub (c :: rest) || containsSub sub rest

/-- Split on a single separator character (Python `s.split(sep)` for a
one-character separator). -/
def splitCh (sep : Char) : List Char → List (List Char)
  | [] => [[]]
  | c :: rest =>
    if c == sep then [] :: splitCh sep rest
    else
      match splitCh sep rest with
      | [] => [[c]]
      | p :: ps => (c :: p) :: ps

/-- The literal `"really_cold"` checked with Python `in`. -/
def rcCore : List Char := ['r', 'e', 'a', 'l', 'l', 'y', '_', 'c', 'o', 'l', 'd']

/-- The literal separator `"_really_cold_"` used by `str.split`. -/
def rcSep : List Char :=
  ['_', 'r', 'e', 'a', 'l', 'l', 'y', '_', 'c', 'o', 'l', 'd', '_']

/-- The first twelve characters `"_really_cold"` of `rcSep`; an occurrence of
`rcSep` in `p ++ rcSep ++ t` strictly before the designated one lies inside
`p ++ rc12`. -/
def rc12 : List Char := ['_', 'r', 'e', 'a', 'l', 'l', 'y', '_', 'c', 'o', 'l', 'd']

/-- Python `name.split('_really_cold_')`: non-overlapping leftmost splitting
on the multi-character separator `rcSep`. -/
def splitRC : List Char → List (List Char)
  | [] => [[]]
  | c :: cs =>
    if leadsWith rcSep (c :: cs) then
      [] :: splitRC ((c :: cs).drop rcSep.length)
    else
      match splitRC cs with
      | [] => [[c]]
      | p :: ps => (c :: p) :: ps
termination_by s => s.length
decreasing_by
  · simp only [List.length_drop, List.length_cons, rcSep]
    omega
  · simp

def hotTok : List Char := ['h', 'o', 't']
def coldTok : List Char := ['c', 'o', 'l', 'd']
def rawTok : List Char := ['r', 'a', 'w']
def gzTok : List Char := ['g', 'z']
def bgzTok : List Char := ['b', 'g', 'z']
def defaultTok : List Char := ['d', 'e', 'f', 'a', 'u', 'l', 't']
def reallyColdTok : List Char :=
  ['r', 'e', 'a', 'l', 'l', 'y', '_', 'c', 'o', 'l', 'd']

/-- `_parse_benchmark_key` from funcitons.py: parse a benchmark key such as
`"0.1m_hot_raw"` or `"1m_really_cold_gz"` into `(size, cache, compression)`,
or `none` when the name does not match. -/
def _parse_benchmark_key (name : List Char) :
    Option (List Char × List Char × List Char) :=
  let nl := name.map Char.toLower
  if containsSub rcCore nl then
    match splitRC nl with
    | [size, compression] =>
      if compression = rawTok ∨ compression = gzTok ∨ compression = bgzTok then
        some (size, reallyColdTok, compression)
      else none
    | _ => none
  else
    match splitCh '_' nl with
    | size :: cache :: compression :: _ =>
      if (cache = hotTok ∨ cache = coldTok) ∧
          (compression = rawTok ∨ compression = gzTok ∨ compression = bgzTok) then
        some (size, cache, compression)
      else none
    | [a, b] =>
      if (a = hotTok ∨ a = coldTok) ∧
          (b = rawTok ∨ b = gzTok ∨ b = bgzTok) then
        some (defaultTok, a, b)
      else none
    | _ => none

/-- ASCII decimal digit test (Python `str.isdigit` restricted to ASCII). -/
def isDigitCh (c : Char) : Bool := '0' ≤ c && c ≤ '9'

/-- Numeric value of a digit string read left to right. -/
def digitsToNat (s : List Char) : ℕ :=
  s.foldl (fun a c => 10 * a + (c.toNat - '0'.toNat)) 0

/-- The ASCII whitespace Python `float` strips from both ends (space, tab,
newline, carriage return, vertical tab, form feed). -/
def isSpaceCh (c : Char) : Bool :=
  c == ' ' || c == '\t' || c == '\n' || c == '\r' || c == '\x0b' || c == '\x0c'

/-- Strip surrounding whitespace. -/
def stripWs (s : List Char) : List Char :=
  ((s.dropWhile isSpaceCh).reverse.dropWhile isSpaceCh).reverse

/-- Continuation of a Python `digitpart` after one digit: further digits,
with a single underscore allowed only between two digits
(`float('1_0') = 10.0`, `float('1_')`/`float('1__0')` raise). -/
def digitTail : List Char → Bool
  | [] => true
  | '_' :: c :: rest => isDigitCh c && digitTail rest
  | ['_'] => false
  | c :: rest => isDigitCh c && digitTail rest

/-- Python grammar `digitpart ::= digit (["_"] digit)*`. -/
def isDigitPart : List Char → Bool
  | [] => false
  | c :: rest => isDigitCh c && digitTail rest

/-- Split a float body at the first `e`/`E` into mantissa and optional
exponent text. -/
def splitExp : List Char → List Char × Option (List Char)
  | [] => ([], none)
  | c :: rest =>
    if c == 'e' || c == 'E' then ([], some rest)
    else
      let me := splitExp rest
      (c :: me.1, me.2)

/-- Python grammar `number ::= [digitpart] ["." [digitpart]]` with at least
one digit in total (`float('1.')`, `float('.5')` succeed, `float('.')`
raises). -/
def mantissaOk (s : List Char) : Bool :=
  match splitCh '.' s with
  | [ip] => isDigitPart ip
  | [ip, fp] =>
    (isDigitPart ip || ip.isEmpty) && (isDigitPart fp || fp.isEmpty) &&
      !(ip.isEmpty && fp.isEmpty)
  | _ => false

/-- Exact rational value of a valid mantissa (underscores discarded). -/
def mantissaVal (s : List Char) : ℚ :=
  match splitCh '.' s with
  | [ip] => digitsToNat (ip.filter isDigitCh)
  | [ip, fp] =>
    (digitsToNat (ip.filter isDigitCh) : ℚ) +
      (digitsToNat (fp.filter isDigitCh) : ℚ) / 10 ^ (fp.filter isDigitCh).length
  | _ => 0

/-- Python grammar `exponent ::= ("e" | "E") [sign] digitpart`; the `e` is
already consumed by `splitExp`. -/
def expOk : List Char → Bool
  | '+' :: r => isDigitPart r
  | '-' :: r => isDigitPart r
  | r => isDigitPart r

/-- Signed integer value of a valid exponent (underscores discarded). -/
def expVal : List Char → ℤ
  | '+' :: r => (digitsToNat (r.filter isDigitCh) : ℤ)
  | '-' :: r => -(digitsToNat (r.filter isDigitCh) : ℤ)
  | r => (digitsToNat (r.filter isDigitCh) : ℤ)

def infTok : List Char := ['i', 'n', 'f']
def infinityTok : List Char := ['i', 'n', 'f', 'i', 'n', 'i', 't', 'y']
def nanTok : List Char := ['n', 'a', 'n']

/-- A value Python `float(str)` can produce: a finite number (idealised as
an exact rational, as numbers are throughout this embedding), a signed
infinity, or NaN. -/
inductive PyFloat where
  | finite (q : ℚ)
  | inf
  | neginf
  | nan
deriving DecidableEq

/-- Models Python `float(s)` on ASCII strings: optional surrounding
whitespace, an optional sign, then — case-insensitively — `inf`/`infinity`,
`nan`, or digits with single underscores between digits, at most one decimal
point, and an optional signed `e`/`E` exponent (`float('1e1') = 10.0`).
Decimal values are kept exact rather than rounded to binary doubles; Unicode
digits and whitespace, which CPython also accepts, are outside the ASCII
label space treated here. -/
def parsePyFloat (s : List Char) : Option PyFloat :=
  let t := stripWs s
  let sgnNeg : Bool := match t with | '-' :: _ => true | _ => false
  let body : List Char :=
    match t with
    | '-' :: r => r
    | '+' :: r => r
    | r => r
  let bl := body.map Char.toLower
  if bl = infTok ∨ bl = infinityTok then
    some (if sgnNeg then .neginf else .inf)
  else if bl = nanTok then some .nan
  else
    let me := splitExp body
    if mantissaOk me.1 then
      match me.2 with
      | none => some (.finite ((if sgnNeg then -1 else 1) * mantissaVal me.1))
      | some e =>
        if expOk e then
          some (.finite
            ((if sgnNeg then -1 else 1) * mantissaVal me.1 * 10 ^ expVal e))
        else none
    else none

/-- IEEE `<` on Python float values: nothing is below NaN and NaN is below
nothing. -/
def pyLt : PyFloat → PyFloat → Bool
  | .finite a, .finite b => a < b
  | .finite _, .inf => true
  | .neginf, .finite _ => true
  | .neginf, .inf => true
  | _, _ => false

/-- Python `s.replace('m', '').replace('M', '')`: delete every `m`/`M`. -/
def stripM (s : List Char) : List Char :=
  s.filter (fun c => !(c == 'm' || c == 'M'))

/-- `size_sort_key` from funcitons.py (`plot_mean_times`): `"default"` maps
to 0; otherwise the label with `m`/`M` deleted goes through `float`, and a
parse failure (`ValueError`) yields the sentinel 999. -/
def size_sort_key (s : List Char) : PyFloat :=
  if s = defaultTok then .finite 0
  else
    match parsePyFloat (stripM s) with
    | some v => v
    | none => .finite 999

/-! ## Result loader (`parse_benchmark_data`) -/

/-- A decoded JSON value (the result of a successful `json.load`).  Numbers
are modelled as `ℚ`. -/
inductive JVal where
  | null
  | jbool (b : Bool)
  | num (q : ℚ)
  | jstr (s : List Char)
  | arr (xs : List JVal)
  | obj (fields : List (List Char × JVal))

/-- Python dict lookup on a decoded object; with duplicate keys in the raw
text, `json.loads` keeps the last occurrence, hence the fold. -/
def jLookup (fields : List (List Char × JVal)) (k : List Char) : Option JVal :=
  fields.foldl (fun acc kv => if kv.1 = k then some kv.2 else acc) none

/-- Python truthiness of a decoded JSON value. -/
def jTruthy : JVal → Bool
  | .null => false
  | .jbool b => b
  | .num q => q ≠ 0
  | .jstr s => !s.isEmpty
  | .arr xs => !xs.isEmpty
  | .obj fs => !fs.isEmpty

/-- The exceptions `parse_benchmark_data` can let escape: `KeyError` from
`result['command']`/`data['results']`, and `TypeError`/`AttributeError` from
applying dict/iteration operations to values of the wrong shape (collapsed
into one constructor; the claims only need that an exception escapes). -/
inductive LoadErr where
  | keyErr
  | typeErr
deriving DecidableEq

/-- Python iteration over a decoded JSON value (`for x in v`): lists yield
elements, strings yield one-character strings, dicts yield their keys, and
everything else raises `TypeError`. -/
def jElems : JVal → Except LoadErr (List JVal)
  | .arr xs => .ok xs
  | .jstr s => .ok (s.map (fun c => .jstr [c]))
  | .obj fs => .ok (fs.map (fun kv => .jstr kv.1))
  | _ => .error .typeErr

/-- Python `code != 0` on a decoded JSON value (`0 == 0.0 == False`). -/
def jNeZero : JVal → Bool
  | .num q => q ≠ 0
  | .jbool b => b
  | _ => true

/-- One row of the loader's output table: the record built at funcitons.py
lines 628–636.  Fields keep the raw JSON values the code stores (the code
never coerces them at this point). -/
structure RunRecord where
  command : JVal
  mean : JVal
  stddev : JVal
  median : JVal
  minv : JVal
  maxv : JVal
  times : JVal

def commandKey : List Char := ['c', 'o', 'm', 'm', 'a', 'n', 'd']
def meanKey : List Char := ['m', 'e', 'a', 'n']
def stddevKey : List Char := ['s', 't', 'd', 'd', 'e', 'v']
def medianKey : List Char := ['m', 'e', 'd', 'i', 'a', 'n']
def minKey : List Char := ['m', 'i', 'n']
def maxKey : List Char := ['m', 'a', 'x']
def timesKey : List Char := ['t', 'i', 'm', 'e', 's']
def exitCodesKey : List Char :=
  ['e', 'x', 'i', 't', '_', 'c', 'o', 'd', 'e', 's']
def resultsKey : List Char := ['r', 'e', 's', 'u', 'l', 't', 's']

/-- The record constructed for a surviving entry (funcitons.py 628–636):
`stddev` defaults to `0.0`, `median`/`min`/`max` to the mean, `times` to the
one-element list `[mean]`, all via `dict.get`. -/
def mkRunRecord (fs : List (List Char × JVal)) (c m : JVal) : RunRecord :=
  { command := c
    mean := m
    stddev := (jLookup fs stddevKey).getD (.num 0)
    median := (jLookup fs medianKey).getD m
    minv := (jLookup fs minKey).getD m
    maxv := (jLookup fs maxKey).getD m
    times := (jLookup fs timesKey).getD (.arr [m]) }

/-- The per-entry body of the loader's `for result in data['results']` loop:
`.ok none` means the entry was dropped with a logged warning, `.ok (some r)`
that it contributed a record, `.error` that an exception escaped. -/
def processEntry (v : JVal) : Except LoadErr (Option RunRecord) :=
  match v with
  | .obj fs =>
    let ec := (jLookup fs exitCodesKey).getD (.arr [])
    if jTruthy ec then
      match jElems ec with
      | .error e => .error e
      | .ok codes =>
        if codes.any jNeZero then .ok none
        else
          match jLookup fs meanKey with
          | none => .ok none
          | some .null => .ok none
          | some m =>
            match jLookup fs commandKey with
            | none => .error .keyErr
            | some c => .ok (some (mkRunRecord fs c m))
    else
      match jLookup fs meanKey with
      | none => .ok none
      | some .null => .ok none
      | some m =>
        match jLookup fs commandKey with
        | none => .error .keyErr
        | some c => .ok (some (mkRunRecord fs c m))
  | _ => .error .typeErr

/-- Run the loop over the results list, stopping at the first escaped
exception (as Python does) and collecting the surviving records in order. -/
def runEntries : List JVal → Except LoadErr (List RunRecord)
  | [] => .ok []
  | v :: rest =>
    match processEntry v with
    | .error e => .error e
    | .ok r =>
      match runEntries rest with
      | .error e => .error e
      | .ok rs => .ok (match r with | some rec => rec :: rs | none => rs)

/-- Input to `parse_benchmark_data`: either `json.load` raised
`json.JSONDecodeError` (an invalid or empty document), or it produced a
decoded value.  OS-level read failures are outside the document semantics the
claims are about. -/
inductive LoadInput where
  | badSyntax
  | decoded (v : JVal)

/-- `parse_benchmark_data` from funcitons.py: `json.JSONDecodeError` is
caught and yields the empty schema-typed table; every other failure mode
(missing `results` key, wrong shapes) escapes as an exception.  The returned
list of records is the DataFrame contents (empty list = empty table with the
declared schema). -/
def parse_benchmark_data (inp : LoadInput) : Except LoadErr (List RunRecord) :=
  match inp with
  | .badSyntax => .ok []
  | .decoded (.obj fs) =>
    match jLookup fs resultsKey with
    | none => .error .keyErr
    | some rv =>
      match jElems rv with
      | .error e => .error e
      | .ok es => runEntries es
  | .decoded _ => .error .typeErr

/-! ## File-size resolver (`get_file_size_bytes`) -/

def rc10mbTok : List Char :=
  ['r', 'e', 'a', 'l', 'l', 'y', '_', 'c', 'o', 'l', 'd', '_', '1', '0', 'm', 'b']
def rc100mbTok : List Char :=
  ['r', 'e', 'a', 'l', 'l', 'y', '_', 'c', 'o', 'l', 'd', '_', '1', '0', '0', 'm', 'b']
def rc1gbTok : List Char :=
  ['r', 'e', 'a', 'l', 'l', 'y', '_', 'c', 'o', 'l', 'd', '_', '1', 'g', 'b']
def rc4gbTok : List Char :=
  ['r', 'e', 'a', 'l', 'l', 'y', '_', 'c', 'o', 'l', 'd', '_', '4', 'g', 'b']
def fastqSuffix : List Char := ['.', 'f', 'a', 's', 't', 'q']
def bgzSuffix : List Char :=
  ['.', 'f', 'a', 's', 't', 'q', '_', 'b', 'g', 'z', 'i', 'p', 'p', 'e', 'd',
    '.', 'g', 'z']
def gzSuffix : List Char := ['.', 'f', 'a', 's', 't', 'q', '.', 'g', 'z']
def hotRawJson : List Char :=
  ['h', 'o', 't', '_', 'r', 'a', 'w', '.', 'j', 's', 'o', 'n']
def coldRawJson : List Char :=
  ['c', 'o', 'l', 'd', '_', 'r', 'a', 'w', '.', 'j', 's', 'o', 'n']
def testDataDir : List Char :=
  ['t', 'e', 's', 't', '-', 'd', 'a', 't', 'a', '/']

/-- The suffix-inference chain of `get_file_size_bytes` (funcitons.py 88–95):
substring containment over the whole path string, `raw` first, then `bgz`,
then `gz`, else no suffix. -/
def inferFileSuffix (p : List Char) : Option (List Char) :=
  if containsSub rawTok p || trailsWith hotRawJson p || trailsWith coldRawJson p then
    some fastqSuffix
  else if containsSub bgzTok p then some bgzSuffix
  else if containsSub gzTok p then some gzSuffix
  else none

/-- Test-size extraction from the path (funcitons.py 81–85): the parent
directory name, when it ends in `m` and holds a digit.  Paths are modelled as
already-normalised relative paths split on `/` (the `pathlib` view the code
takes). -/
def extractTestSize (p : List Char) : Option (List Char) :=
  match (splitCh '/' p).reverse with
  | _ :: parent :: _ =>
    if trailsWith ['m'] parent && parent.any isDigitCh then some parent
    else none
  | _ => none

/-- The on-disk state `get_file_size_bytes` consults: whether `test-data`
exists, and the byte size of each existing file (`none` = no such file). -/
structure DiskFS where
  dataDirThere : Bool
  sizeOn : List Char → Option ℚ

/-- `get_file_size_bytes` from funcitons.py: fixed sizes for the four
really-cold generated files, otherwise a disk lookup of
`test-data/<size><suffix>`; `none` when the compression cannot be inferred or
the file is absent.  The Python body is wrapped in a blanket
`except Exception: return None`, which the total `Option`-valued embedding
reflects. -/
def get_file_size_bytes (disk : DiskFS) (p : List Char) : Option ℚ :=
  if containsSub rc10mbTok p then some (10 * 1024 ^ 2)
  else if containsSub rc100mbTok p then some (100 * 1024 ^ 2)
  else if containsSub rc1gbTok p then some (1024 ^ 3)
  else if containsSub rc4gbTok p then some (4 * 1024 ^ 3)
  else
    let testSize := extractTestSize p
    match inferFileSuffix p with
    | none => none
    | some suf =>
      match testSize with
      | some ts =>
        if disk.dataDirThere then disk.sizeOn (testDataDir ++ ts ++ suf)
        else none
      | none => none

/-! ## Throughput derivation (`plot_throughput`) -/

/-- One numeric row of a loaded MetricsTable as the plotting layer reads it
(`row['mean']`, `row['stddev']`; `stddev` may be `None`). -/
structure MetricRow where
  command : List Char
  mean : ℚ
  stddev : Option ℚ

/-- `file_size_gb / mean_time` with `file_size_gb = file_size_bytes/1024^3`
(funcitons.py 1346, 1354). -/
def throughputGbsOf (sBytes m : ℚ) : ℚ := sBytes / 1024 ^ 3 / m

/-- First-order error propagation
`file_size_gb * stddev / mean_time ** 2` (funcitons.py 1358). -/
def throughputStddevOf (sBytes m sd : ℚ) : ℚ := sBytes / 1024 ^ 3 * sd / m ^ 2

/-- `key.split('_')[0]` (the `size_str` of `extract_size_info`). -/
def firstPart (key : List Char) : List Char :=
  match splitCh '_' key with
  | p :: _ => p
  | [] => []

/-- The numeric size of `extract_size_info`
(`float(size_str.replace('m','').replace('M',''))`, `None` on failure). -/
def sizeValueOf (key : List Char) : Option PyFloat :=
  parsePyFloat (stripM (firstPart key))

/-- The display label of `extract_size_info` for keys whose size parses
(`size_str.upper()`). -/
def sizeDisplayOf (key : List Char) : List Char :=
  (firstPart key).map Char.toUpper

/-- The key filter shared by `plot_throughput` and `plot_test_size_scaling`
(funcitons.py 1160–1163, 1306–1309). -/
def matchingKey (cacheT fmt key : List Char) (df : List MetricRow) : Bool :=
  containsSub ('_' :: (cacheT ++ ['_'])) key &&
    trailsWith ('_' :: fmt) key &&
    !containsSub rcCore key &&
    !df.isEmpty

/-- One entry of the derived throughput table (funcitons.py 1360–1368). -/
structure ThroughputRow where
  sizeValue : PyFloat
  sizeDisplay : List Char
  command : List Char
  throughputGbs : ℚ
  throughputStddev : ℚ
  fileSizeMb : ℚ
  meanTime : ℚ

/-- The rows one benchmark key contributes to the throughput table
(funcitons.py 1330–1368): nothing when the resolved size is unknown (`None`,
which also covers a key missing from `available_results`) or zero, or the
size label does not parse; otherwise one row per command with positive mean
time. -/
def throughput_rows_for_key (key : List Char) (sBytes : Option ℚ)
    (df : List MetricRow) : List ThroughputRow :=
  match sBytes with
  | none => []
  | some S =>
    if S = 0 then []
    else
      match sizeValueOf key with
      | none => []
      | some v =>
        df.filterMap fun r =>
          if 0 < r.mean then
            some { sizeValue := v
                   sizeDisplay := sizeDisplayOf key
                   command := r.command
                   throughputGbs := throughputGbsOf S r.mean
                   throughputStddev := throughputStddevOf S r.mean (r.stddev.getD 0)
                   fileSizeMb := S / 1024 ^ 2
                   meanTime := r.mean }
          else none

/-- The full collection loop of `plot_throughput` over the keyed tables,
with the resolved size attached to each key. -/
def throughput_rows (cacheT fmt : List Char)
    (entries : List (List Char × Option ℚ × List MetricRow)) :
    List ThroughputRow :=
  entries.flatMap fun e =>
    if matchingKey cacheT fmt e.1 e.2.2 then
      throughput_rows_for_key e.1 e.2.1 e.2.2
    else []

/-! ## Scaling series and efficiency (`plot_test_size_scaling`) -/

/-- One entry of the scaling series (funcitons.py 1194–1201). -/
structure ScalingRow where
  sizeValue : PyFloat
  sizeDisplay : List Char
  command : List Char
  mean : ℚ
  stddev : ℚ

/-- The scaling series built by `plot_test_size_scaling` (funcitons.py
1160–1201): one row per command measurement of each matching key whose size
label parses. -/
def scaling_rows (cacheT fmt : List Char)
    (entries : List (List Char × List MetricRow)) : List ScalingRow :=
  entries.flatMap fun e =>
    if matchingKey cacheT fmt e.1 e.2 then
      match sizeValueOf e.1 with
      | none => []
      | some v =>
        e.2.map fun r =>
          { sizeValue := v
            sizeDisplay := sizeDisplayOf e.1
            command := r.command
            mean := r.mean
            stddev := r.stddev.getD 0 }
    else []

/-- Stable insertion into a list sorted ascending by `f`. -/
def insertByKey {α : Type} (f : α → ℚ) (p : α) : List α → List α
  | [] => [p]
  | q :: qs => if f q < f p then q :: insertByKey f p qs else p :: q :: qs

/-- Stable ascending sort by `f`: models `sorted(..., key=f)` / a polars
`.sort` on one numeric column. -/
def sortByKey {α : Type} (f : α → ℚ) (l : List α) : List α :=
  l.foldr (insertByKey f) []

/-- The per-command efficiency computation of `plot_test_size_scaling`
(funcitons.py 1275–1287) on the `(size_value, mean)` pairs of one command:
sort by size, and when there are at least two rows and the first row has
positive time and size, divide the largest/smallest time ratio by the
largest/smallest size ratio (`0` if the size ratio is not positive).
`none` means the code prints no efficiency for this command. -/
def scaling_efficiency (rows : List (ℚ × ℚ)) : Option ℚ :=
  match sortByKey Prod.fst rows with
  | p0 :: p1 :: ps =>
    let plast := (p1 :: ps).getLast (by simp)
    if 0 < p0.2 ∧ 0 < p0.1 then
      some (if 0 < plast.1 / p0.1 then plast.2 / p0.2 / (plast.1 / p0.1) else 0)
    else none
  | _ => none

/-! ## Grid organisation (`plot_mean_times`, grid layout) -/

/-- One row of a mean-times table as `plot_mean_times` reads it. -/
structure PRow where
  command : List Char
  mean : ℚ
  stddev : Option ℚ
  minv : ℚ
  maxv : ℚ

/-- Python dict insertion `d[k] = v`: overwrite in place or append. -/
def dictInsert (k : List Char × List Char) (v : List Char × List PRow)
    (d : List ((List Char × List Char) × (List Char × List PRow))) :
    List ((List Char × List Char) × (List Char × List PRow)) :=
  if d.any (fun kv => kv.1 = k) then
    d.map (fun kv => if kv.1 = k then (k, v) else kv)
  else d ++ [(k, v)]

/-- Python dict lookup over the organised mapping. -/
def lookupOrg (d : List ((List Char × List Char) × (List Char × List PRow)))
    (k : List Char × List Char) : Option (List Char × List PRow) :=
  d.foldl (fun acc kv => if kv.1 = k then some kv.2 else acc) none

/-- `organized_data` of `plot_mean_times` (funcitons.py 239–257): drop empty
tables, unparseable keys and other cache states; key the rest by
`(compression, size)`. -/
def organize_grid_data (cacheT : List Char)
    (tables : List (List Char × List PRow)) :
    List ((List Char × List Char) × (List Char × List PRow)) :=
  tables.foldl
    (fun acc nt =>
      if nt.2.isEmpty then acc
      else
        match _parse_benchmark_key nt.1 with
        | none => acc
        | some psd =>
          if psd.2.1 = cacheT then dictInsert (psd.2.2, psd.1) nt acc else acc)
    []

/-- One row of `combined_df` (funcitons.py 282–300). -/
structure CombinedRow where
  command : List Char
  mean : ℚ
  stddev : ℚ
  minv : ℚ
  maxv : ℚ
  compression : List Char
  size : List Char
  benchName : List Char

/-- `combined_rows` — all organised tables flattened into one table
(funcitons.py 282–294). -/
def combined_rows
    (org : List ((List Char × List Char) × (List Char × List PRow))) :
    List CombinedRow :=
  org.flatMap fun kv =>
    kv.2.2.map fun r =>
      { command := r.command
        mean := r.mean
        stddev := r.stddev.getD 0
        minv := r.minv
        maxv := r.maxv
        compression := kv.1.1
        size := kv.1.2
        benchName := kv.2.1 }

/-- `all_parsers` (funcitons.py 303): the distinct commands of the combined
table.  Python additionally sorts the deduplicated list; only membership
matters to the claims, and it is unchanged by sorting. -/
def all_parsers
    (org : List ((List Char × List Char) × (List Char × List PRow))) :
    List (List Char) :=
  ((combined_rows org).map (fun r => r.command)).dedup

/-- The compression ordinal `{'raw': 0, 'gz': 1, 'bgz': 2}.get(x, 3)`
(funcitons.py 265). -/
def compRank (c : List Char) : ℚ :=
  if c = rawTok then 0 else if c = gzTok then 1 else if c = bgzTok then 2 else 3

/-- The distinct compressions of the organised keys in display order
(funcitons.py 264–265). -/
def compressions_of
    (org : List ((List Char × List Char) × (List Char × List PRow))) :
    List (List Char) :=
  sortByKey compRank ((org.map (fun kv => kv.1.1)).dedup)

/-- Stable insertion into a list sorted ascending by a Python-float key
under IEEE `<` (the comparisons Python `sorted` makes). -/
def insertByPyKey {α : Type} (f : α → PyFloat) (p : α) : List α → List α
  | [] => [p]
  | q :: qs => if pyLt (f q) (f p) then q :: insertByPyKey f p qs else p :: q :: qs

/-- Ascending sort by a Python-float key. -/
def sortByPyKey {α : Type} (f : α → PyFloat) (l : List α) : List α :=
  l.foldr (insertByPyKey f) []

/-- The distinct sizes of the organised keys in display order
(funcitons.py 276). -/
def sizes_of
    (org : List ((List Char × List Char) × (List Char × List PRow))) :
    List (List Char) :=
  sortByPyKey size_sort_key ((org.map (fun kv => kv.1.2)).dedup)

/-- A grid cell: either a chart over the combined rows of that
`(compression, size)` pair, or the explicit `No Data` placeholder
(funcitons.py 313–369). -/
inductive Cell where
  | cdata (name : List Char) (rows : List CombinedRow)
  | noData

/-- The cell built for one `(compression, size)` position. -/
def cell_at (org : List ((List Char × List Char) × (List Char × List PRow)))
    (comp size : List Char) : Cell :=
  match lookupOrg org (comp, size) with
  | some nt =>
    .cdata nt.1
      ((combined_rows org).filter
        (fun r => r.compression = comp ∧ r.size = size))
  | none => .noData

/-- The chart grid: one row per size, one cell per compression
(funcitons.py 309–369). -/
def grid_rows (org : List ((List Char × List Char) × (List Char × List PRow))) :
    List (List Char × List Cell) :=
  (sizes_of org).map fun size =>
    (size, (compressions_of org).map fun comp => cell_at org comp size)

/-! ## Statement-level definitions -/

/-- The constructed 3-part name `f"{size}_{cache}_{compression}"`. -/
def name3 (size cache comp : List Char) : List Char :=
  size ++ '_' :: (cache ++ '_' :: comp)

/-- A name of the shape `prefix + "_really_cold_" + tail`. -/
def nameRC (p t : List Char) : List Char := p ++ (rcSep ++ t)

/-- Whether a compression token is one of `raw`, `gz`, `bgz`. -/
def compTok (c : List Char) : Prop := c = rawTok ∨ c = gzTok ∨ c = bgzTok

/-- An `exit_codes` value matching the documented schema: absent, or an
array of numbers. -/
def wfCodes : Option JVal → Prop
  | none => True
  | some (.arr cs) => ∀ c ∈ cs, ∃ q, c = JVal.num q
  | _ => False

/-- A well-formed results entry per the documented input shape (§6 of the
spec): an object whose `command` is present and whose `exit_codes`, when
present, is an array of numbers. -/
def WFEntry : JVal → Prop
  | .obj fs => wfCodes (jLookup fs exitCodesKey) ∧ (jLookup fs commandKey).isSome
  | _ => False

/-- Boolean test for a zero exit code value. -/
def jIsZeroNum : JVal → Bool
  | .num q => q == 0
  | _ => false

/-- Boolean test for JSON `null`. -/
def jIsNull : JVal → Bool
  | .null => true
  | _ => false

/-- The spec-worded inclusion condition on `exit_codes`: when present, all
codes are zero. -/
def allCodesZero : Option JVal → Bool
  | none => true
  | some (.arr cs) => cs.all jIsZeroNum
  | some _ => false

/-- Spec-side selection (stated from the spec's words, for comparison with
the loader): keep exactly those entries whose `mean` is present and non-null
and whose `exit_codes` (when present) are all zero, building the same record
the loader builds. -/
def spec_selected_entry (v : JVal) : Option RunRecord :=
  match v with
  | .obj fs =>
    match jLookup fs meanKey, jLookup fs commandKey with
    | some m, some c =>
      if !jIsNull m && allCodesZero (jLookup fs exitCodesKey) then
        some (mkRunRecord fs c m)
      else none
    | _, _ => none
  | _ => none

/-- An entry that recorded at least one failed iteration (a non-zero exit
code). -/
def hasFailedRun (v : JVal) : Prop :=
  ∃ fs cs, v = JVal.obj fs ∧ jLookup fs exitCodesKey = some (.arr cs) ∧
    ∃ q, JVal.num q ∈ cs ∧ q ≠ 0

/-! ## String lemmas -/

theorem leadsWith_iff (a : List Char) :
    ∀ b, leadsWith a b = true ↔ ∃ t, b = a ++ t := by
  induction a with
  | nil => intro b; simp [leadsWith]
  | cons c cs ih =>
    intro b
    cases b with
    | nil => simp [leadsWith]
    | cons d ds =>
      simp only [leadsWith, Bool.and_eq_true, beq_iff_eq, ih ds,
        List.cons_append, List.cons.injEq]
      constructor
      · rintro ⟨rfl, t, rfl⟩
        exact ⟨t, rfl, rfl⟩
      · rintro ⟨t, rfl, rfl⟩
        exact ⟨rfl, t, rfl⟩

theorem containsSub_iff (a : List Char) :
    ∀ b, containsSub a b = true ↔ ∃ x y, b = x ++ (a ++ y) := by
  intro b
  induction b with
  | nil =>
    simp only [containsSub, leadsWith_iff]
    constructor
    · rintro ⟨t, ht⟩
      exact ⟨[], t, ht⟩
    · rintro ⟨x, y, hxy⟩
      rcases List.append_eq_nil.mp hxy.symm with ⟨rfl, h2⟩
      exact ⟨y, h2.symm⟩
  | cons d ds ih =>
    simp only [containsSub, Bool.or_eq_true, leadsWith_iff, ih]
    constructor
    · rintro (⟨t, ht⟩ | ⟨x, y, hxy⟩)
      · exact ⟨[], t, by simp [ht]⟩
      · exact ⟨d :: x, y, by simp [hxy]⟩
    · rintro ⟨x, y, hxy⟩
      cases x with
      | nil => exact Or.inl ⟨y, by simpa using hxy⟩
      | cons e es =>
        right
        rw [List.cons_append] at hxy
        exact ⟨es, y, (List.cons.injEq _ _ _ _ ▸ hxy).2⟩

theorem trailsWith_iff (suf p : List Char) :
    trailsWith suf p = true ↔ ∃ x, p = x ++ suf := by
  simp only [trailsWith, leadsWith_iff]
  constructor
  · rintro ⟨t, ht⟩
    refine ⟨t.reverse, ?_⟩
    have := congrArg List.reverse ht
    simpa using this
  · rintro ⟨x, rfl⟩
    exact ⟨x.reverse, by simp⟩

theorem containsSub_append_of (a x s : List Char)
    (h : containsSub a s = true) : containsSub a (x ++ s) = true := by
  rcases (containsSub_iff a s).mp h with ⟨u, v, rfl⟩
  exact (containsSub_iff a _).mpr ⟨x ++ u, v, by simp⟩

theorem containsSub_self_append (a t : List Char) :
    containsSub a (a ++ t) = true :=
  (containsSub_iff a _).mpr ⟨[], t, by simp⟩

theorem containsSub_trans (a b p : List Char)
    (hab : containsSub a b = true) (hbp : containsSub b p = true) :
    containsSub a p = true := by
  rcases (containsSub_iff b p).mp hbp with ⟨x, y, rfl⟩
  rcases (containsSub_iff a b).mp hab with ⟨u, v, rfl⟩
  exact (containsSub_iff a _).mpr ⟨x ++ u, v ++ y, by simp⟩

theorem containsSub_of_trailsWith (a suf p : List Char)
    (hs : trailsWith suf p = true) (ha : containsSub a suf = true) :
    containsSub a p = true := by
  rcases (trailsWith_iff suf p).mp hs with ⟨x, rfl⟩
  rcases (containsSub_iff a suf).mp ha with ⟨u, v, rfl⟩
  exact (containsSub_iff a _).mpr ⟨x ++ u, v, by simp⟩

theorem leadsWith_of_append :
    ∀ (sep A B : List Char), leadsWith sep (A ++ B) = true →
      sep.length ≤ A.length → leadsWith sep A = true := by
  intro sep
  induction sep with
  | nil => intro A B _ _; simp [leadsWith]
  | cons s ss ih =>
    intro A B h hlen
    cases A with
    | nil => simp at hlen
    | cons a as =>
      simp only [List.cons_append, leadsWith, Bool.and_eq_true] at h ⊢
      exact ⟨h.1, ih as B h.2 (by simpa using hlen)⟩

theorem splitCh_append (sep : Char) (t : List Char) :
    ∀ s, (∀ c ∈ s, c ≠ sep) →
      splitCh sep (s ++ sep :: t) = s :: splitCh sep t := by
  intro s
  induction s with
  | nil => intro _; simp [splitCh]
  | cons c cs ih =>
    intro h
    have hc : (c == sep) = false := by
      simpa using h c (by simp)
    have ht := ih (fun d hd => h d (by simp [hd]))
    simp only [List.cons_append, splitCh, hc, Bool.false_eq_true, if_false,
      List.append_eq, ht]

theorem splitCh_no_sep (sep : Char) :
    ∀ s, (∀ c ∈ s, c ≠ sep) → splitCh sep s = [s] := by
  intro s
  induction s with
  | nil => intro _; simp [splitCh]
  | cons c cs ih =>
    intro h
    have hc : (c == sep) = false := by
      simpa using h c (by simp)
    have := ih (fun d hd => h d (by simp [hd]))
    simp only [splitCh, hc, Bool.false_eq_true, if_false, this]

theorem splitRC_cons (c : Char) (cs : List Char) :
    splitRC (c :: cs) =
      if leadsWith rcSep (c :: cs) then
        [] :: splitRC ((c :: cs).drop rcSep.length)
      else
        match splitRC cs with
        | [] => [[c]]
        | p :: ps => (c :: p) :: ps := by
  rw [splitRC]

theorem splitRC_ne_nil (s : List Char) : splitRC s ≠ [] := by
  cases s with
  | nil => simp [splitRC]
  | cons c cs =>
    rw [splitRC_cons]
    by_cases h : leadsWith rcSep (c :: cs) = true
    · simp [h]
    · rw [if_neg h]
      cases hs : splitRC cs <;> simp

theorem splitRC_singleton_aux :
    ∀ (n : ℕ) (s : List Char), s.length ≤ n →
      ∀ x, splitRC s = [x] → x = s := by
  intro n
  induction n with
  | zero =>
    intro s hs x hx
    have : s = [] := List.length_eq_zero.mp (Nat.le_zero.mp hs)
    subst this
    simp [splitRC] at hx
    simp [hx]
  | succ n ih =>
    intro s hs x hx
    cases s with
    | nil =>
      simp [splitRC] at hx
      simp [hx]
    | cons c cs =>
      rw [splitRC_cons] at hx
      by_cases h : leadsWith rcSep (c :: cs) = true
      · rw [if_pos h] at hx
        simp only [List.cons.injEq] at hx
        exact absurd hx.2 (splitRC_ne_nil _)
      · rw [if_neg h] at hx
        cases hs' : splitRC cs with
        | nil => exact absurd hs' (splitRC_ne_nil cs)
        | cons p ps =>
          rw [hs'] at hx
          simp only [List.cons.injEq] at hx
          rcases hx with ⟨h1, h2⟩
          subst h2
          have hlen : cs.length ≤ n := by
            simp only [List.length_cons] at hs
            omega
          have hcs : p = cs := ih cs hlen p hs'
          rw [← h1, hcs]

theorem splitRC_singleton (s x : List Char) (h : splitRC s = [x]) : x = s :=
  splitRC_singleton_aux s.length s le_rfl x h

theorem rcSep_eq_rc12 : rcSep = rc12 ++ ['_'] := rfl

theorem splitRC_append (t : List Char) :
    ∀ p, containsSub rcSep (p ++ rc12) = false →
      splitRC (p ++ (rcSep ++ t)) = p :: splitRC t := by
  intro p
  induction p with
  | nil =>
    intro _
    have hlead : leadsWith rcSep (rcSep ++ t) = true :=
      (leadsWith_iff rcSep _).mpr ⟨t, rfl⟩
    have hcons : rcSep ++ t =
        '_' :: (['r', 'e', 'a', 'l', 'l', 'y', '_', 'c', 'o', 'l', 'd', '_'] ++ t) := rfl
    rw [List.nil_append, hcons, splitRC_cons, ← hcons, if_pos hlead,
      List.drop_left]
  | cons c p' ih =>
    intro h
    have hsplit : containsSub rcSep ((c :: p') ++ rc12) =
        (leadsWith rcSep (c :: (p' ++ rc12)) || containsSub rcSep (p' ++ rc12)) := rfl
    rw [hsplit] at h
    rcases Bool.or_eq_false_iff.mp h with ⟨h1, h2⟩
    have hlead : leadsWith rcSep (c :: (p' ++ (rcSep ++ t))) = false := by
      by_contra hc
      have hc' : leadsWith rcSep (c :: (p' ++ (rcSep ++ t))) = true := by
        simpa using hc
      have heq : c :: (p' ++ (rcSep ++ t)) =
          (c :: (p' ++ rc12)) ++ ('_' :: t) := by
        simp [rcSep_eq_rc12]
      rw [heq] at hc'
      have := leadsWith_of_append rcSep (c :: (p' ++ rc12)) ('_' :: t) hc'
        (by simp [rcSep, rc12])
      rw [this] at h1
      exact Bool.true_eq_false ▸ h1
    have ihr := ih h2
    rw [List.cons_append, splitRC_cons, if_neg (by simp [hlead]), ihr]

theorem toLower_underscore : Char.toLower '_' = '_' := by decide

theorem toLower_hot : hotTok.map Char.toLower = hotTok := by decide

theorem toLower_cold : coldTok.map Char.toLower = coldTok := by decide

theorem toLower_raw : rawTok.map Char.toLower = rawTok := by decide

theorem toLower_gz : gzTok.map Char.toLower = gzTok := by decide

theorem toLower_bgz : bgzTok.map Char.toLower = bgzTok := by decide

theorem toLower_rcSep : rcSep.map Char.toLower = rcSep := by decide

/-- The 3-part splitting of a constructed name whose size holds no
underscore. -/
theorem splitCh_name3 (size cache comp : List Char)
    (hus : ∀ c ∈ size, c ≠ '_')
    (huc : ∀ c ∈ cache, c ≠ '_')
    (huk : ∀ c ∈ comp, c ≠ '_') :
    splitCh '_' (name3 size cache comp) = [size, cache, comp] := by
  rw [name3, splitCh_append '_' (cache ++ '_' :: comp) size hus,
    splitCh_append '_' comp cache huc, splitCh_no_sep '_' comp huk]

/-- Claim C5, amended: the 3-part round trip holds for lowercase,
underscore-free size labels whose constructed name does not contain
`really_cold`. -/
theorem c5_three_part_roundtrip (size cache comp : List Char)
    (hcache : cache = hotTok ∨ cache = coldTok)
    (hcomp : compTok comp)
    (hlower : size.map Char.toLower = size)
    (hus : ∀ c ∈ size, c ≠ '_')
    (hrc : containsSub rcCore (name3 size cache comp) = false) :
    _parse_benchmark_key (name3 size cache comp) = some (size, cache, comp) := by
  have hl : (name3 size cache comp).map Char.toLower = name3 size cache comp := by
    rcases hcache with rfl | rfl <;>
      rcases hcomp with rfl | rfl | rfl <;>
        simp [name3, hlower, toLower_underscore, toLower_hot, toLower_cold,
          toLower_raw, toLower_gz, toLower_bgz]
  have hsplit : splitCh '_' (name3 size cache comp) = [size, cache, comp] := by
    refine splitCh_name3 size cache comp hus ?_ ?_
    · rcases hcache with rfl | rfl <;> decide
    · rcases hcomp with rfl | rfl | rfl <;> decide
  simp only [_parse_benchmark_key, hl, hrc, Bool.false_eq_true, if_false,
    hsplit]
  rw [if_pos ⟨hcache, hcomp⟩]

/-- Claim C5, counterexamples to the unrestricted statement: the size label
`really` with cold cache trips the `really_cold` branch and parses to
nothing; an uppercase size label is not recovered verbatim; a size label
holding an underscore mis-splits and parses to nothing. -/
theorem c5_unrestricted_fails :
    _parse_benchmark_key
      (name3 ['r', 'e', 'a', 'l', 'l', 'y'] coldTok rawTok) = none ∧
    _parse_benchmark_key (name3 ['1', 'M'] hotTok rawTok) ≠
      some (['1', 'M'], hotTok, rawTok) ∧
    _parse_benchmark_key (name3 ['a', '_', 'b'] hotTok rawTok) = none := by
  refine ⟨?_, by decide, by decide⟩
  simp [_parse_benchmark_key, name3, containsSub, leadsWith, rcCore, rcSep,
    splitRC, coldTok, rawTok, gzTok, bgzTok]

/-- Witness for C5 at a concrete valid label. -/
theorem c5_three_part_roundtrip_witness :
    _parse_benchmark_key (name3 ['0', '.', '1', 'm'] hotTok gzTok) =
      some (['0', '.', '1', 'm'], hotTok, gzTok) :=
  c5_three_part_roundtrip ['0', '.', '1', 'm'] hotTok gzTok (Or.inl rfl)
    (Or.inr (Or.inl rfl)) (by decide) (by decide) (by decide)

/-- Claim C6, amended, part of the statement used below: names built as
`prefix ++ "_really_cold_" ++ tail` for a lowercase prefix in which the
separator occurs only at the designated position. -/
theorem c6_really_cold_parse (p t : List Char)
    (hlower : p.map Char.toLower = p)
    (hone : containsSub rcSep (p ++ rc12) = false)
    (hlt : t.map Char.toLower = t) :
    (compTok t → _parse_benchmark_key (nameRC p t) = some (p, reallyColdTok, t)) ∧
    (¬ compTok t → _parse_benchmark_key (nameRC p t) = none) := by
  have hl : (nameRC p t).map Char.toLower = nameRC p t := by
    simp [nameRC, hlower, hlt, toLower_rcSep]
  have hcontains : containsSub rcCore (nameRC p t) = true := by
    have hshape : nameRC p t = (p ++ ['_']) ++ (rcCore ++ ('_' :: t)) := by
      simp [nameRC, rcSep, rcCore]
    rw [hshape]
    exact containsSub_append_of _ _ _ (containsSub_self_append rcCore _)
  have hsplit : splitRC (nameRC p t) = p :: splitRC t := splitRC_append t p hone
  constructor
  · intro hcomp
    have hst : splitRC t = [t] := by
      rcases hcomp with rfl | rfl | rfl <;>
        simp [splitRC, rcSep, leadsWith, rawTok, gzTok, bgzTok]
    simp only [_parse_benchmark_key, hl, hcontains, if_true, hsplit, hst]
    rcases hcomp with rfl | rfl | rfl <;> simp [rawTok, gzTok, bgzTok, compTok]
  · intro hcomp
    simp only [_parse_benchmark_key, hl, hcontains, if_true, hsplit]
    cases hst : splitRC t with
    | nil => exact absurd hst (splitRC_ne_nil t)
    | cons x xs =>
      cases xs with
      | nil =>
        have : x = t := splitRC_singleton t x hst
        subst this
        show (if x = rawTok ∨ x = gzTok ∨ x = bgzTok then
            some (p, reallyColdTok, x)
          else none) = none
        rw [if_neg (by simpa [compTok, not_or] using hcomp)]
      | cons y ys => rfl

/-- Claim C6, counterexamples to the unrestricted statement: a prefix that
itself ends in `_really_cold` makes the split find an earlier occurrence
(the name `a_really_cold_really_cold_raw` parses to nothing although it
contains `_really_cold_` followed by `raw`), and an uppercase prefix is not
recovered verbatim. -/
theorem c6_unrestricted_fails :
    _parse_benchmark_key
      (nameRC ['a', '_', 'r', 'e', 'a', 'l', 'l', 'y', '_', 'c', 'o', 'l', 'd']
        rawTok) = none ∧
    _parse_benchmark_key (nameRC ['A'] rawTok) ≠
      some (['A'], reallyColdTok, rawTok) := by
  constructor
  · simp [_parse_benchmark_key, nameRC, containsSub, leadsWith, rcCore, rcSep,
      splitRC, rawTok, gzTok, bgzTok]
  · simp [_parse_benchmark_key, nameRC, containsSub, leadsWith, rcCore, rcSep,
      splitRC, rawTok, gzTok, bgzTok, reallyColdTok]

/-- Witness for C6 at a concrete really-cold name and a concrete invalid
tail. -/
theorem c6_really_cold_parse_witness :
    _parse_benchmark_key (nameRC ['1', 'm'] gzTok) =
      some (['1', 'm'], reallyColdTok, gzTok) ∧
    _parse_benchmark_key (nameRC ['1', 'm'] ['x']) = none :=
  ⟨(c6_really_cold_parse ['1', 'm'] gzTok (by decide) (by decide)
      (by decide)).1 (Or.inr (Or.inl rfl)),
    (c6_really_cold_parse ['1', 'm'] ['x'] (by decide) (by decide)
      (by decide)).2 (by simp [compTok, rawTok, gzTok, bgzTok])⟩

/-- Claim C7, amended: `"default"` maps to ordinal 0; a non-default label
whose stripped remainder Python `float` accepts — including scientific
notation such as `1e1` — is keyed by that float value; the example list
`["default", "0.1m", "1m", "10m"]` has strictly increasing keys (so it sorts
as given and `10m` never sorts before `1m`); and a label `float` rejects
maps to the sentinel 999, hence sorts after every parsable finite label of
magnitude below 999 (not after all labels, see the counterexample). -/
theorem c7_size_ordering :
    size_sort_key defaultTok = .finite 0 ∧
    (pyLt (size_sort_key defaultTok) (size_sort_key ['0', '.', '1', 'm']) = true ∧
      pyLt (size_sort_key ['0', '.', '1', 'm']) (size_sort_key ['1', 'm']) = true ∧
      pyLt (size_sort_key ['1', 'm']) (size_sort_key ['1', '0', 'm']) = true) ∧
    (∀ s v, s ≠ defaultTok → parsePyFloat (stripM s) = some v →
      size_sort_key s = v) ∧
    (size_sort_key ['1', 'e', '1'] = .finite 10 ∧
      pyLt (size_sort_key ['1', 'e', '1'])
        (size_sort_key ['5', '0', '0', 'm']) = true) ∧
    (∀ s t q, s ≠ defaultTok → t ≠ defaultTok →
      parsePyFloat (stripM s) = some (.finite q) → q < 999 →
      parsePyFloat (stripM t) = none →
      pyLt (size_sort_key s) (size_sort_key t) = true) := by
  have hparse : ∀ s v, s ≠ defaultTok → parsePyFloat (stripM s) = some v →
      size_sort_key s = v := by
    intro s v hs hv
    simp [size_sort_key, hs, hv]
  refine ⟨by simp [size_sort_key], ?_, hparse, ?_, ?_⟩
  · refine ⟨?_, ?_, ?_⟩ <;>
      simp +decide [size_sort_key, defaultTok, stripM, parsePyFloat, stripWs,
        isSpaceCh, splitExp, mantissaOk, mantissaVal, isDigitPart, digitTail,
        isDigitCh, digitsToNat, expOk, expVal, infTok, infinityTok, nanTok,
        splitCh, pyLt] <;>
      norm_num
  · constructor <;>
      simp +decide [size_sort_key, defaultTok, stripM, parsePyFloat, stripWs,
        isSpaceCh, splitExp, mantissaOk, mantissaVal, isDigitPart, digitTail,
        isDigitCh, digitsToNat, expOk, expVal, infTok, infinityTok, nanTok,
        splitCh, pyLt]
  intro s t q hs ht hq hq999 hnone
  have hks : size_sort_key s = .finite q := hparse s _ hs hq
  have hkt : size_sort_key t = .finite 999 := by
    simp [size_sort_key, ht, hnone]
  rw [hks, hkt]
  simpa [pyLt] using hq999

/-- Claim C7, counterexample to "unparsable labels sort last": the parsable
label `1000m` has key 1000, while the label `zzz`, which `float` rejects,
has key 999 and therefore sorts before it. -/
theorem c7_sentinel_not_infinity :
    parsePyFloat (stripM ['1', '0', '0', '0', 'm']) = some (.finite 1000) ∧
    parsePyFloat (stripM ['z', 'z', 'z']) = none ∧
    pyLt (size_sort_key ['z', 'z', 'z'])
      (size_sort_key ['1', '0', '0', '0', 'm']) = true := by
  refine ⟨?_, ?_, ?_⟩ <;>
    simp +decide [size_sort_key, defaultTok, stripM, parsePyFloat, stripWs,
      isSpaceCh, splitExp, mantissaOk, mantissaVal, isDigitPart, digitTail,
      isDigitCh, digitsToNat, expOk, expVal, infTok, infinityTok, nanTok,
      splitCh, pyLt] <;>
    norm_num

/-- Witness for C7 at concrete labels. -/
theorem c7_size_ordering_witness :
    size_sort_key ['4', 'm'] = .finite 4 ∧
    pyLt (size_sort_key ['4', 'm']) (size_sort_key ['w', 'a', 't']) = true :=
  ⟨c7_size_ordering.2.2.1 ['4', 'm'] (.finite 4) (by decide)
      (by simp +decide [stripM, parsePyFloat, stripWs, isSpaceCh, splitExp,
        mantissaOk, mantissaVal, isDigitPart, digitTail, isDigitCh,
        digitsToNat, infTok, infinityTok, nanTok, splitCh]),
    c7_size_ordering.2.2.2.2 ['4', 'm'] ['w', 'a', 't'] 4 (by decide)
      (by decide)
      (by simp +decide [stripM, parsePyFloat, stripWs, isSpaceCh, splitExp,
        mantissaOk, mantissaVal, isDigitPart, digitTail, isDigitCh,
        digitsToNat, infTok, infinityTok, nanTok, splitCh])
      (by norm_num)
      (by simp +decide [stripM, parsePyFloat, stripWs, isSpaceCh, splitExp,
        mantissaOk, mantissaVal, isDigitPart, digitTail, isDigitCh,
        digitsToNat, infTok, infinityTok, nanTok, splitCh])⟩

/-! ## Loader claims -/

/-- Claim C1, counterexample: the syntactically valid document `{}` has no
`results` key, and the loader raises (`KeyError`) instead of degrading to an
empty table. -/
theorem c1_structural_failure_raises :
    parse_benchmark_data (.decoded (.obj [])) = .error .keyErr := rfl

/-- Claim C1, amended: only JSON syntax failures are caught (warning plus
empty schema-typed table); a structurally deficient decoded document — one
without a `results` key — raises. -/
theorem c1_syntax_failure_degrades :
    parse_benchmark_data .badSyntax = .ok [] ∧
    ∀ fs, jLookup fs resultsKey = none →
      parse_benchmark_data (.decoded (.obj fs)) = .error .keyErr := by
  refine ⟨rfl, ?_⟩
  intro fs h
  simp [parse_benchmark_data, h]

/-- Witness for C1 at a concrete keyless document. -/
theorem c1_syntax_failure_degrades_witness :
    parse_benchmark_data (.decoded (.obj [(commandKey, .null)])) =
      .error .keyErr :=
  c1_syntax_failure_degrades.2 [(commandKey, .null)] rfl

theorem any_ne_all_zero (cs : List JVal)
    (h : ∀ c ∈ cs, ∃ q, c = JVal.num q) :
    cs.any jNeZero = !cs.all jIsZeroNum := by
  induction cs with
  | nil => simp
  | cons c cs ih =>
    rcases h c (by simp) with ⟨q, rfl⟩
    have hrest := ih (fun d hd => h d (by simp [hd]))
    cases hq : (q == 0) with
    | true =>
      have hq0 : q = 0 := by simpa using hq
      subst hq0
      simp [jNeZero, jIsZeroNum, hrest]
    | false =>
      have hq0 : q ≠ 0 := by simpa using hq
      simp [jNeZero, jIsZeroNum, hq0, hq]

theorem processEntry_eq_spec (v : JVal) (h : WFEntry v) :
    processEntry v = .ok (spec_selected_entry v) := by
  cases v with
  | obj fs =>
    rcases h with ⟨hcodes, hcmd⟩
    rcases Option.isSome_iff_exists.mp hcmd with ⟨c, hc⟩
    cases hec : jLookup fs exitCodesKey with
    | none =>
      rw [hec] at hcodes
      simp only [processEntry, spec_selected_entry, hec, Option.getD, jTruthy,
        List.isEmpty_nil, Bool.not_true, Bool.false_eq_true, if_false,
        allCodesZero, Bool.and_true]
      cases hm : jLookup fs meanKey with
      | none => rfl
      | some m =>
        cases m <;> simp [hc, jIsNull, mkRunRecord]
    | some ec =>
      rw [hec] at hcodes
      cases ec with
      | arr cs =>
        have hall := any_ne_all_zero cs hcodes
        simp only [processEntry, spec_selected_entry, hec, Option.getD, jTruthy,
          allCodesZero]
        cases hcs : cs with
        | nil =>
          simp only [List.isEmpty_nil, Bool.not_true, Bool.false_eq_true,
            if_false, List.all_nil, Bool.and_true]
          cases hm : jLookup fs meanKey with
          | none => rfl
          | some m => cases m <;> simp [hc, jIsNull, mkRunRecord]
        | cons c0 cs0 =>
          rw [← hcs]
          have hne : cs.isEmpty = false := by simp [hcs]
          simp only [hne, Bool.not_false, if_true, jElems, hall]
          cases hz : cs.all jIsZeroNum with
          | false =>
            cases hm : jLookup fs meanKey with
            | none => rfl
            | some m => simp [hc]
          | true =>
            simp only [Bool.not_true, Bool.false_eq_true, if_false,
              Bool.and_true]
            cases hm : jLookup fs meanKey with
            | none => rfl
            | some m => cases m <;> simp [hc, jIsNull, mkRunRecord]
      | null => exact absurd hcodes (by simp [wfCodes])
      | jbool b => exact absurd hcodes (by simp [wfCodes])
      | num q => exact absurd hcodes (by simp [wfCodes])
      | jstr s => exact absurd hcodes (by simp [wfCodes])
      | obj fs' => exact absurd hcodes (by simp [wfCodes])
  | null => exact absurd h (by simp [WFEntry])
  | jbool b => exact absurd h (by simp [WFEntry])
  | num q => exact absurd h (by simp [WFEntry])
  | jstr s => exact absurd h (by simp [WFEntry])
  | arr xs => exact absurd h (by simp [WFEntry])

theorem runEntries_eq (es : List JVal) (h : ∀ v ∈ es, WFEntry v) :
    runEntries es = .ok (es.filterMap spec_selected_entry) := by
  induction es with
  | nil => rfl
  | cons v vs ih =>
    have hv := processEntry_eq_spec v (h v (by simp))
    have hvs := ih (fun d hd => h d (by simp [hd]))
    simp only [runEntries, hv, hvs, List.filterMap_cons]
    cases spec_selected_entry v <;> rfl

theorem spec_none_of_failed (v : JVal) (h : hasFailedRun v) :
    spec_selected_entry v = none := by
  rcases h with ⟨fs, cs, rfl, hec, q, hq, hq0⟩
  have hz : cs.all jIsZeroNum = false := by
    cases hzz : cs.all jIsZeroNum
    · rfl
    · have := List.all_eq_true.mp hzz (JVal.num q) hq
      simp [jIsZeroNum, hq0] at this
  simp only [spec_selected_entry, hec, allCodesZero, hz, Bool.and_false]
  cases jLookup fs meanKey with
  | none => rfl
  | some m =>
    cases jLookup fs commandKey with
    | none => rfl
    | some c => simp

/-- Claim C2: on a well-formed results document the loaded table holds
exactly the entries whose `mean` is present and non-null and whose
`exit_codes` (when present) are all zero; in particular a document in which
every entry has a non-zero exit code loads to the empty table with no raised
failure. -/
theorem c2_loader_keeps_exactly :
    (∀ fs es, jLookup fs resultsKey = some (.arr es) →
      (∀ v ∈ es, WFEntry v) →
      parse_benchmark_data (.decoded (.obj fs)) =
        .ok (es.filterMap spec_selected_entry)) ∧
    (∀ fs es, jLookup fs resultsKey = some (.arr es) →
      (∀ v ∈ es, WFEntry v) →
      (∀ v ∈ es, hasFailedRun v) →
      parse_benchmark_data (.decoded (.obj fs)) = .ok []) := by
  have hmain : ∀ fs es, jLookup fs resultsKey = some (.arr es) →
      (∀ v ∈ es, WFEntry v) →
      parse_benchmark_data (.decoded (.obj fs)) =
        .ok (es.filterMap spec_selected_entry) := by
    intro fs es hres hwf
    simp only [parse_benchmark_data, hres, jElems]
    exact runEntries_eq es hwf
  refine ⟨hmain, ?_⟩
  intro fs es hres hwf hfail
  rw [hmain fs es hres hwf]
  have : es.filterMap spec_selected_entry = [] :=
    List.filterMap_eq_nil_iff.mpr fun v hv => spec_none_of_failed v (hfail v hv)
  rw [this]

/-- Witness for C2: a concrete document whose single entry failed one run
loads to the empty table without an escaped exception. -/
theorem c2_loader_keeps_exactly_witness :
    parse_benchmark_data (.decoded (.obj
      [(resultsKey, .arr [.obj
        [(commandKey, .jstr ['a']), (meanKey, .num 1),
          (exitCodesKey, .arr [.num 1])]])])) = .ok [] :=
  c2_loader_keeps_exactly.2
    [(resultsKey, .arr [.obj
      [(commandKey, .jstr ['a']), (meanKey, .num 1),
        (exitCodesKey, .arr [.num 1])]])]
    [.obj [(commandKey, .jstr ['a']), (meanKey, .num 1),
      (exitCodesKey, .arr [.num 1])]]
    rfl
    (by
      intro v hv
      simp only [List.mem_singleton] at hv
      subst hv
      exact ⟨fun c hc => by
        simp only [List.mem_singleton] at hc
        exact ⟨1, hc⟩, rfl⟩)
    (by
      intro v hv
      simp only [List.mem_singleton] at hv
      subst hv
      exact ⟨_, _, rfl, rfl, 1, by simp, one_ne_zero⟩)

/-! ## Throughput claims -/

/-- Claim C3: the stored value is in GB/s (GB = 1024³ bytes); scaled back to
bytes per second it equals `file_size_bytes / mean_time`, and the propagated
uncertainty equals `file_size_bytes * stddev / mean_time²`. -/
theorem c3_throughput_formulas (S m sd : ℚ) (hm : 0 < m) :
    throughputGbsOf S m * 1024 ^ 3 = S / m ∧
    throughputStddevOf S m sd * 1024 ^ 3 = S * sd / m ^ 2 := by
  have hm0 : m ≠ 0 := ne_of_gt hm
  constructor
  · rw [throughputGbsOf]
    field_simp
    ring
  · rw [throughputStddevOf]
    field_simp
    ring

/-- Witness for C3 at concrete values. -/
theorem c3_throughput_formulas_witness :
    throughputGbsOf 1024 2 * 1024 ^ 3 = 1024 / 2 ∧
    throughputStddevOf 1024 2 1 * 1024 ^ 3 = 1024 * 1 / 2 ^ 2 :=
  c3_throughput_formulas 1024 2 1 (by norm_num)

/-- Claim C4: every derived throughput entry has a positive mean time and a
known non-zero file size, and an unknown size (`None`) contributes no
entries at all (it is never treated as zero). -/
theorem c4_throughput_skips :
    (∀ key sBytes df r, r ∈ throughput_rows_for_key key sBytes df →
      0 < r.meanTime ∧ ∃ S, sBytes = some S ∧ S ≠ 0) ∧
    (∀ key df, throughput_rows_for_key key none df = []) := by
  refine ⟨?_, fun key df => rfl⟩
  intro key sBytes df r hr
  cases sBytes with
  | none => simp [throughput_rows_for_key] at hr
  | some S =>
    rw [throughput_rows_for_key] at hr
    by_cases hS : S = 0
    · rw [if_pos hS] at hr
      simp at hr
    · rw [if_neg hS] at hr
      cases hv : sizeValueOf key with
      | none => rw [hv] at hr; simp at hr
      | some v =>
        rw [hv] at hr
        rcases List.mem_filterMap.mp hr with ⟨a, _, ha⟩
        by_cases hma : 0 < a.mean
        · rw [if_pos hma] at ha
          rcases Option.some.injEq _ _ ▸ ha with rfl
          exact ⟨hma, S, rfl, hS⟩
        · rw [if_neg hma] at ha
          exact absurd ha (by simp)

/-- Witness for C4 at a concrete key, size and table. -/
theorem c4_throughput_skips_witness :
    0 < (ThroughputRow.mk (.finite 1)
      (sizeDisplayOf ['1', 'm', '_', 'h', 'o', 't', '_', 'r', 'a', 'w']) ['a']
      (throughputGbsOf 1024 1) (throughputStddevOf 1024 1 0)
      (1024 / 1024 ^ 2) 1).meanTime ∧
    ∃ S, (some (1024 : ℚ)) = some S ∧ S ≠ 0 :=
  c4_throughput_skips.1 ['1', 'm', '_', 'h', 'o', 't', '_', 'r', 'a', 'w']
    (some 1024) [⟨['a'], 1, none⟩] _
    (by
      simp +decide [throughput_rows_for_key, sizeValueOf, firstPart, splitCh,
        stripM, parsePyFloat, stripWs, isSpaceCh, splitExp, mantissaOk,
        mantissaVal, isDigitPart, digitTail, isDigitCh, digitsToNat, infTok,
        infinityTok, nanTok])

/-! ## Sorting lemmas and the scaling-efficiency claim -/

theorem insertByKey_perm {α : Type} (f : α → ℚ) (p : α) :
    ∀ l : List α, List.Perm (insertByKey f p l) (p :: l) := by
  intro l
  induction l with
  | nil => rfl
  | cons q qs ih =>
    rw [insertByKey]
    by_cases h : f q < f p
    · rw [if_pos h]
      exact (ih.cons q).trans (List.Perm.swap p q qs)
    · rw [if_neg h]

theorem sortByKey_perm {α : Type} (f : α → ℚ) (l : List α) :
    List.Perm (sortByKey f l) l := by
  induction l with
  | nil => rfl
  | cons x xs ih =>
    exact (insertByKey_perm f x (sortByKey f xs)).trans (ih.cons x)

theorem insertByKey_head {α : Type} (f : α → ℚ) (p : α) (l : List α) :
    ∀ y, (insertByKey f p l).head? = some y → y = p ∨ l.head? = some y := by
  cases l with
  | nil =>
    intro y hy
    simp [insertByKey] at hy
    exact Or.inl hy.symm
  | cons q qs =>
    intro y hy
    rw [insertByKey] at hy
    by_cases h : f q < f p
    · rw [if_pos h] at hy
      simp at hy
      exact Or.inr (by simp [hy])
    · rw [if_neg h] at hy
      simp at hy
      exact Or.inl hy.symm

theorem chain'_insertByKey {α : Type} (f : α → ℚ) (p : α) :
    ∀ l : List α, List.Chain' (fun a b => f a ≤ f b) l →
      List.Chain' (fun a b => f a ≤ f b) (insertByKey f p l) := by
  intro l
  induction l with
  | nil => intro _; simp [insertByKey]
  | cons q qs ih =>
    intro h
    rw [insertByKey]
    by_cases hq : f q < f p
    · rw [if_pos hq]
      rcases List.chain'_cons'.mp h with ⟨hhead, htail⟩
      refine List.chain'_cons'.mpr ⟨?_, ih htail⟩
      intro y hy
      rcases insertByKey_head f p qs y hy with rfl | hmem
      · exact le_of_lt hq
      · exact hhead y hmem
    · rw [if_neg hq]
      exact List.chain'_cons'.mpr ⟨fun y hy => by
        simp at hy
        rw [← hy]
        exact not_lt.mp hq, h⟩

theorem chain'_sortByKey {α : Type} (f : α → ℚ) (l : List α) :
    List.Chain' (fun a b => f a ≤ f b) (sortByKey f l) := by
  induction l with
  | nil => simp [sortByKey]
  | cons x xs ih => exact chain'_insertByKey f x (sortByKey f xs) ih

theorem chain'_head_le {α : Type} (f : α → ℚ) (p0 : α) (rest : List α)
    (h : List.Chain' (fun a b => f a ≤ f b) (p0 :: rest)) :
    ∀ x ∈ p0 :: rest, f p0 ≤ f x := by
  haveI : IsTrans α (fun a b => f a ≤ f b) :=
    ⟨fun a b c hab hbc => le_trans hab hbc⟩
  have hpw : List.Pairwise (fun a b => f a ≤ f b) (p0 :: rest) :=
    List.chain'_iff_pairwise.mp h
  intro x hx
  rcases List.mem_cons.mp hx with rfl | hx'
  · exact le_refl _
  · exact (List.pairwise_cons.mp hpw).1 x hx'

theorem chain'_le_getLast {α : Type} (f : α → ℚ) :
    ∀ (l : List α), List.Chain' (fun a b => f a ≤ f b) l →
      ∀ (hne : l ≠ []) (x : α), x ∈ l → f x ≤ f (l.getLast hne) := by
  intro l
  induction l with
  | nil => intro _ hne; exact absurd rfl hne
  | cons a t ih =>
    intro h hne x hx
    cases t with
    | nil =>
      rcases List.mem_singleton.mp hx with rfl
      simp
    | cons b t2 =>
      rw [List.getLast_cons (by simp)]
      haveI : IsTrans α (fun a b => f a ≤ f b) :=
        ⟨fun a b c hab hbc => le_trans hab hbc⟩
      have hpw : List.Pairwise (fun a b => f a ≤ f b) (a :: b :: t2) :=
        List.chain'_iff_pairwise.mp h
      rcases List.mem_cons.mp hx with rfl | hx'
      · exact (List.pairwise_cons.mp hpw).1 _ (List.getLast_mem _)
      · exact ih (List.Chain'.tail h) (by simp) x hx'

/-- Claim C8: for a per-command series with at least two pairwise distinct
sizes, a positive mean time at the smallest size and a positive smallest
size, the derived efficiency is
`(time at largest / time at smallest) / (largest size / smallest size)`. -/
theorem c8_scaling_efficiency (rows : List (ℚ × ℚ)) (smin tmin smax tmax : ℚ)
    (hmin : (smin, tmin) ∈ rows) (hmax : (smax, tmax) ∈ rows)
    (hbound : ∀ p ∈ rows, smin ≤ p.1 ∧ p.1 ≤ smax)
    (hnodup : (rows.map Prod.fst).Nodup)
    (hlen : 2 ≤ rows.length)
    (htmin : 0 < tmin) (hsmin : 0 < smin) :
    scaling_efficiency rows = some (tmax / tmin / (smax / smin)) := by
  have hperm : List.Perm (sortByKey Prod.fst rows) rows := sortByKey_perm _ rows
  have hchain : List.Chain' (fun a b => a.1 ≤ b.1) (sortByKey Prod.fst rows) :=
    chain'_sortByKey _ rows
  have hlens : 2 ≤ (sortByKey Prod.fst rows).length := by
    rw [hperm.length_eq]; exact hlen
  cases hs : sortByKey Prod.fst rows with
  | nil => rw [hs] at hlens; simp at hlens
  | cons p0 s' =>
    cases s' with
    | nil => rw [hs] at hlens; simp at hlens
    | cons p1 ps =>
      rw [hs] at hperm hchain
      have hp0mem : p0 ∈ rows := hperm.mem_iff.mp (by simp)
      have hminmem : (smin, tmin) ∈ p0 :: p1 :: ps := hperm.mem_iff.mpr hmin
      have hp0fst : p0.1 = smin := by
        have h1 : p0.1 ≤ smin :=
          chain'_head_le Prod.fst p0 (p1 :: ps) hchain (smin, tmin) hminmem
        have h2 : smin ≤ p0.1 := (hbound p0 hp0mem).1
        exact le_antisymm h1 h2
      have hp0eq : p0 = (smin, tmin) :=
        List.inj_on_of_nodup_map hnodup hp0mem hmin hp0fst
      have hlast_mem : (p1 :: ps).getLast (by simp) ∈ p0 :: p1 :: ps := by
        have := List.getLast_mem (l := p1 :: ps) (by simp)
        exact List.mem_cons_of_mem p0 this
      have hlast_mem_rows : (p1 :: ps).getLast (by simp) ∈ rows :=
        hperm.mem_iff.mp hlast_mem
      have hmaxmem : (smax, tmax) ∈ p0 :: p1 :: ps := hperm.mem_iff.mpr hmax
      have hlast_eq_getLast :
          ((p0 :: p1 :: ps).getLast (by simp)) = (p1 :: ps).getLast (by simp) :=
        List.getLast_cons (by simp)
      have hlastfst : ((p1 :: ps).getLast (by simp)).1 = smax := by
        have h1 : smax ≤ ((p1 :: ps).getLast (by simp)).1 := by
          have := chain'_le_getLast Prod.fst (p0 :: p1 :: ps) hchain (by simp)
            (smax, tmax) hmaxmem
          rw [hlast_eq_getLast] at this
          exact this
        have h2 : ((p1 :: ps).getLast (by simp)).1 ≤ smax :=
          (hbound _ hlast_mem_rows).2
        exact le_antisymm h2 h1
      have hlast_eq : (p1 :: ps).getLast (by simp) = (smax, tmax) :=
        List.inj_on_of_nodup_map hnodup hlast_mem_rows hmax hlastfst
      have hsmax : 0 < smax := lt_of_lt_of_le hsmin (hbound _ hmax).1
      simp only [scaling_efficiency, hs, hlast_eq, hp0eq]
      rw [if_pos ⟨htmin, hsmin⟩, if_pos (div_pos hsmax hsmin)]

/-- Witness for C8: identical timings at a tenfold size ratio give
efficiency exactly 0.1. -/
theorem c8_scaling_efficiency_witness :
    scaling_efficiency [(1, 5), (10, 5)] = some (1 / 10) := by
  have h := c8_scaling_efficiency [(1, 5), (10, 5)] 1 5 10 5
    (by simp) (by simp)
    (by
      intro p hp
      rcases List.mem_cons.mp hp with rfl | hp'
      · norm_num
      · rcases List.mem_singleton.mp hp' with rfl
        norm_num)
    (by norm_num)
    (by norm_num) (by norm_num) (by norm_num)
  rw [h]
  norm_num

/-! ## Grid and series claims -/

/-- Claim C9, counterexample: with one hot table (command `a`) and one cold
table (command `b`), the hot grid's identity domain omits `b` although `b`
is observed across the input tables. -/
theorem c9_domain_misses_other_cache :
    ['b'] ∉ all_parsers (organize_grid_data hotTok
      [(['1', 'm', '_', 'h', 'o', 't', '_', 'r', 'a', 'w'],
          [PRow.mk ['a'] 1 none 1 1]),
        (['1', 'm', '_', 'c', 'o', 'l', 'd', '_', 'r', 'a', 'w'],
          [PRow.mk ['b'] 1 none 1 1])]) ∧
    (∃ t ∈ [((['1', 'm', '_', 'h', 'o', 't', '_', 'r', 'a', 'w'] : List Char),
          [PRow.mk ['a'] 1 none 1 1]),
        (['1', 'm', '_', 'c', 'o', 'l', 'd', '_', 'r', 'a', 'w'],
          [PRow.mk ['b'] 1 none 1 1])],
      ∃ r ∈ t.2, r.command = ['b']) := by
  constructor
  · simp [all_parsers, combined_rows, organize_grid_data, dictInsert,
      _parse_benchmark_key, containsSub, leadsWith, rcCore, splitCh, hotTok,
      coldTok, rawTok, gzTok, bgzTok]
  · exact ⟨(['1', 'm', '_', 'c', 'o', 'l', 'd', '_', 'r', 'a', 'w'],
      [PRow.mk ['b'] 1 none 1 1]), by simp,
      PRow.mk ['b'] 1 none 1 1, by simp, rfl⟩

/-- Claim C9, amended: the identity domain lists every command of the
tables organised into the requested view (not of all input tables, see the
counterexample); the grid enumerates one cell per (size, compression) pair
and marks exactly the pairs without a table as no-data; and every scaling
series point stems from an actual measurement. -/
theorem c9_grid_and_series_alignment :
    (∀ ct tables k nt r, (k, nt) ∈ organize_grid_data ct tables →
      r ∈ nt.2 →
      r.command ∈ all_parsers (organize_grid_data ct tables)) ∧
    (∀ org : List ((List Char × List Char) × (List Char × List PRow)),
      (grid_rows org).map Prod.fst = sizes_of org ∧
      (∀ sz, sz ∈ sizes_of org →
        (sz, (compressions_of org).map fun comp => cell_at org comp sz) ∈
          grid_rows org) ∧
      (∀ comp sz, cell_at org comp sz = Cell.noData ↔
        lookupOrg org (comp, sz) = none)) ∧
    (∀ ct fmt entries r, r ∈ scaling_rows ct fmt entries →
      ∃ e, e ∈ entries ∧ ∃ m, m ∈ e.2 ∧ m.command = r.command ∧
        m.mean = r.mean ∧ sizeValueOf e.1 = some r.sizeValue) := by
  refine ⟨?_, ?_, ?_⟩
  · intro ct tables k nt r hk hr
    apply List.mem_dedup.mpr
    apply List.mem_map.mpr
    refine ⟨⟨r.command, r.mean, r.stddev.getD 0, r.minv, r.maxv, k.1, k.2,
      nt.1⟩, ?_, rfl⟩
    exact List.mem_flatMap.mpr ⟨(k, nt), hk, List.mem_map.mpr ⟨r, hr, rfl⟩⟩
  · intro org
    refine ⟨?_, ?_, ?_⟩
    · have hid : (Prod.fst ∘ fun size =>
          (size, (compressions_of org).map fun comp => cell_at org comp size)) =
          id := rfl
      rw [grid_rows, List.map_map, hid, List.map_id]
    · intro sz hsz
      exact List.mem_map.mpr ⟨sz, hsz, rfl⟩
    · intro comp sz
      cases h : lookupOrg org (comp, sz) <;> simp [cell_at, h]
  · intro ct fmt entries r hr
    rcases List.mem_flatMap.mp hr with ⟨e, he, hre⟩
    cases hmk : matchingKey ct fmt e.1 e.2 with
    | false =>
      rw [if_neg (by simp [hmk])] at hre
      simp at hre
    | true =>
      rw [if_pos hmk] at hre
      cases hv : sizeValueOf e.1 with
      | none => rw [hv] at hre; simp at hre
      | some v =>
        rw [hv] at hre
        rcases List.mem_map.mp hre with ⟨m, hm, heq⟩
        refine ⟨e, he, m, hm, ?_, ?_, ?_⟩
        · rw [← heq]
        · rw [← heq]
        · rw [← heq]
          exact hv

/-- Witness for C9: a concrete organised table whose single command is in
the domain. -/
theorem c9_grid_and_series_alignment_witness :
    ['a'] ∈ all_parsers (organize_grid_data hotTok
      [(['1', 'm', '_', 'h', 'o', 't', '_', 'r', 'a', 'w'],
        [PRow.mk ['a'] 1 none 1 1])]) :=
  c9_grid_and_series_alignment.1 hotTok
    [(['1', 'm', '_', 'h', 'o', 't', '_', 'r', 'a', 'w'],
      [PRow.mk ['a'] 1 none 1 1])]
    (rawTok, ['1', 'm'])
    (['1', 'm', '_', 'h', 'o', 't', '_', 'r', 'a', 'w'],
      [PRow.mk ['a'] 1 none 1 1])
    (PRow.mk ['a'] 1 none 1 1)
    (by
      simp [organize_grid_data, dictInsert, _parse_benchmark_key, containsSub,
        leadsWith, rcCore, splitCh, hotTok, coldTok, rawTok, gzTok, bgzTok])
    (by simp)

/-! ## File-size resolver claim -/

/-- Claim C10: compression is inferred by substring containment over the
whole path with precedence raw, then bgz, then gz (`raw` wins even when `gz`
is also present); when none of the three occurs (and no really-cold fixed
size matches) the resolver returns `none`; the embedding is total, matching
the blanket exception handler. -/
theorem c10_suffix_inference :
    (∀ p, containsSub rawTok p = true → inferFileSuffix p = some fastqSuffix) ∧
    (∀ p, containsSub rawTok p = false → containsSub bgzTok p = true →
      inferFileSuffix p = some bgzSuffix) ∧
    (∀ p, containsSub rawTok p = false → containsSub bgzTok p = false →
      containsSub gzTok p = true → inferFileSuffix p = some gzSuffix) ∧
    (∀ p disk, containsSub rc10mbTok p = false →
      containsSub rc100mbTok p = false →
      containsSub rc1gbTok p = false → containsSub rc4gbTok p = false →
      containsSub rawTok p = false → containsSub gzTok p = false →
      get_file_size_bytes disk p = none) := by
  have hhot : ∀ p, containsSub rawTok p = false →
      trailsWith hotRawJson p = false := by
    intro p h
    cases hh : trailsWith hotRawJson p
    · rfl
    · have := containsSub_of_trailsWith rawTok hotRawJson p hh (by decide)
      rw [this] at h
      exact absurd h (by simp)
  have hcold : ∀ p, containsSub rawTok p = false →
      trailsWith coldRawJson p = false := by
    intro p h
    cases hh : trailsWith coldRawJson p
    · rfl
    · have := containsSub_of_trailsWith rawTok coldRawJson p hh (by decide)
      rw [this] at h
      exact absurd h (by simp)
  refine ⟨?_, ?_, ?_, ?_⟩
  · intro p h
    rw [inferFileSuffix, if_pos (by simp [h])]
  · intro p hraw hbgz
    rw [inferFileSuffix, if_neg (by simp [hraw, hhot p hraw, hcold p hraw]),
      if_pos hbgz]
  · intro p hraw hbgz hgz
    rw [inferFileSuffix, if_neg (by simp [hraw, hhot p hraw, hcold p hraw]),
      if_neg (by simp [hbgz]), if_pos hgz]
  · intro p disk h10 h100 h1g h4g hraw hgz
    have hbgz : containsSub bgzTok p = false := by
      cases hb : containsSub bgzTok p
      · rfl
      · have := containsSub_trans gzTok bgzTok p (by decide) hb
        rw [this] at hgz
        exact absurd hgz (by simp)
    have hsuf : inferFileSuffix p = none := by
      rw [inferFileSuffix, if_neg (by simp [hraw, hhot p hraw, hcold p hraw]),
        if_neg (by simp [hbgz]), if_neg (by simp [hgz])]
    simp only [get_file_size_bytes, h10, h100, h1g, h4g, Bool.false_eq_true,
      if_false, hsuf]

/-- Witness for C10: a path containing both `raw` and `gz` still resolves to
the raw suffix, and a path with none of the markers resolves to no size. -/
theorem c10_suffix_inference_witness :
    inferFileSuffix ['r', 'a', 'w', 'g', 'z'] = some fastqSuffix ∧
    get_file_size_bytes (DiskFS.mk true (fun _ => none)) ['x'] = none :=
  ⟨c10_suffix_inference.1 ['r', 'a', 'w', 'g', 'z'] (by decide),
    c10_suffix_inference.2.2.2 ['x'] (DiskFS.mk true (fun _ => none))
      (by decide) (by decide) (by decide) (by decide) (by decide) (by decide)⟩

end Biofaster
